import Mathlib

/-!
Verification of the C32 encoding library (src/address/c32.rs).

The Rust source is shallowly embedded: byte strings (`&[u8]`, `&str`) become
`List Nat` with every element below 256 (below 128 for ASCII); machine
arithmetic is `Nat` arithmetic with explicit `%`/`/` by powers of two;
fallible functions return an explicit result type.  Since the source calls
`.unwrap()` on fallible values and slices `&str` at byte positions (both of
which can panic), results are modelled by `C32Result`, which has a dedicated
`panic` constructor alongside `ok` and `err`.
-/

set_option maxRecDepth 20000

namespace C32

/-- Embedding of the `Error` enum (declared in the parent module of
`c32.rs`; only the variants used by `c32.rs` are modelled, and the
`String` payload of `Error::Other` is dropped since no code path
inspects it). `invalidCrockford32` is the single variant the source uses
for non-ASCII input, invalid alphabet symbols and structurally short
input alike. -/
inductive Error where
  | invalidVersion (v : Nat)
  | invalidCrockford32
  | badChecksum (computed expected : Nat)
  | other
  deriving DecidableEq, Repr

/-- Result of a Rust function that may return `Ok`, return `Err`, or panic
(`unwrap` on an `Err`, or an out-of-bounds / non-char-boundary access). -/
inductive C32Result (α : Type) where
  | ok (a : α)
  | err (e : Error)
  | panic
  deriving DecidableEq, Repr

/-- The `C32_CHARACTERS` alphabet `0123456789ABCDEFGHJKMNPQRSTVWXYZ` as
ASCII codes. -/
def C32_CHARACTERS : List Nat :=
  [48, 49, 50, 51, 52, 53, 54, 55, 56, 57, 65, 66, 67, 68, 69, 70, 71, 72,
   74, 75, 77, 78, 80, 81, 82, 83, 84, 86, 87, 88, 89, 90]

/-- The 128-entry decode table `C32_CHARACTERS_MAP`, copied verbatim from the
source: `-1` marks an invalid character, other entries are the decoded
5-bit value.  Lowercase letters alias their uppercase forms and
`O`/`o` map to 0, `L`/`l`/`I`/`i` map to 1. -/
def C32_CHARACTERS_MAP : List Int :=
  [-1, -1, -1, -1, -1, -1, -1, -1, -1, -1, -1, -1, -1, -1, -1, -1, -1, -1,
   -1, -1, -1, -1, -1, -1, -1, -1, -1, -1, -1, -1, -1, -1, -1, -1, -1, -1,
   -1, -1, -1, -1, -1, -1, -1, -1, -1, -1, -1, -1,
   0, 1, 2, 3, 4, 5, 6, 7, 8, 9, -1, -1, -1, -1, -1, -1, -1,
   10, 11, 12, 13, 14, 15, 16, 17, 1, 18, 19, 1, 20, 21, 0, 22, 23, 24, 25,
   26, -1, 27, 28, 29, 30, 31, -1, -1, -1, -1, -1, -1,
   10, 11, 12, 13, 14, 15, 16, 17, 1, 18, 19, 1, 20, 21, 0, 22, 23, 24, 25,
   26, -1, 27, 28, 29, 30, 31, -1, -1, -1, -1, -1]

/-- `C32_CHARACTERS[d]`: the alphabet symbol for a 5-bit value. -/
def c32CharOf (d : Nat) : Nat := C32_CHARACTERS.getD d 0

/-- `C32_CHARACTERS_MAP.get(c)` followed by `u8::try_from`: `none` when the
byte is outside the table (≥ 128) or maps to `-1`. -/
def lookupC32 (c : Nat) : Option Nat :=
  match C32_CHARACTERS_MAP[c]? with
  | none => none
  | some v => if v < 0 then none else some v.toNat

/-- The main loop of `c32_encode_to_buffer`: the input bytes are consumed
least-significant (last) byte first, and 5-bit groups are emitted
least-significant group first.  State `(carry, carryBits)` holds the
`carryBits` (< 5) bits left over from the previous byte. -/
def c32EncodeLoop : List Nat → Nat → Nat → List Nat
  | [], carry, carryBits =>
      if 0 < carryBits then [carry] else []
  | b :: rest, carry, carryBits =>
      let lowBits := b % 2 ^ (5 - carryBits)
      let c32value := lowBits * 2 ^ carryBits + carry
      let carryBits2 := 8 + carryBits - 5
      let carry2 := b / 2 ^ (8 - carryBits2)
      if 5 ≤ carryBits2 then
        c32value :: carry2 % 32 :: c32EncodeLoop rest (carry2 / 32) (carryBits2 - 5)
      else
        c32value :: c32EncodeLoop rest carry2 carryBits2

/-- `get_max_c32_encode_output_len`.  The source computes
`((n as f64 + (n % 5) as f64) / 5.0 * 8.0) as usize`; this is the exact
integer value `(n + n % 5) * 8 / 5` of that expression (the `f64` division
is exact whenever `5 ∣ n + n % 5`, and otherwise the true value is at
least 1/5 away from an integer, swamping the rounding error for any
input length below 2^49). -/
def get_max_c32_encode_output_len (inputLen : Nat) : Nat :=
  (inputLen + inputLen % 5) * 8 / 5

/-- The 5-bit groups produced by `c32_encode_to_buffer`, in output (most
significant first) order: the packing loop runs over the reversed input,
leading zero groups of the packed number are stripped, and one zero group
per leading zero input byte is put back. -/
def c32EncodeDigits (inputBytes : List Nat) : List Nat :=
  let digits := c32EncodeLoop inputBytes.reverse 0 0
  List.replicate (inputBytes.takeWhile (· == 0)).length 0
    ++ digits.reverse.dropWhile (· == 0)

/-- `c32_encode`, with the `String::from_utf8(...).unwrap()` at the end of
the Rust function expressed as the list of ASCII codes of the output
(the buffer-sizing theorems below show the inner
`c32_encode_to_buffer(...).unwrap()` cannot fail). -/
def c32_encode (inputBytes : List Nat) : List Nat :=
  (c32EncodeDigits inputBytes).map c32CharOf

/-- `c32_encode_to_buffer input output_buffer` for a caller buffer of length
`outLen`.  It rejects an undersized buffer with `Error::Other`; the two
`panic` guards model the unchecked `output_buffer[position]` writes of the
packing phase and of the leading-zero re-append phase (the highest position
touched is `max` of the packed length and the final length).  The `ok`
payload is the written prefix of the buffer. -/
def c32_encode_to_buffer (inputBytes : List Nat) (outLen : Nat) :
    C32Result (List Nat) :=
  if outLen < get_max_c32_encode_output_len inputBytes.length then .err .other
  else if outLen < (c32EncodeLoop inputBytes.reverse 0 0).length then .panic
  else if outLen < (c32EncodeDigits inputBytes).length then .panic
  else .ok (c32_encode inputBytes)

/-- The symbol-to-5-bit-value pass of `c32_decode_ascii`: every character is
looked up in `C32_CHARACTERS_MAP`; any invalid character fails the whole
decode.  Characters are kept in input order (the source stores them
reversed; only the traversal order differs, not the result). -/
def c32DigitsOf : List Nat → Option (List Nat)
  | [] => some []
  | c :: rest =>
      match lookupC32 c, c32DigitsOf rest with
      | some d, some ds => some (d :: ds)
      | _, _ => none

/-- The accumulation loop of `c32_decode_ascii`: 5-bit groups arrive least
significant first and are repacked into bytes, least significant byte
first; `carry` holds `carryBits` (< 8) pending bits. -/
def c32DecodeLoop : List Nat → Nat → Nat → List Nat
  | [], carry, carryBits =>
      if 0 < carryBits then [carry] else []
  | d :: rest, carry, carryBits =>
      let carry2 := carry + d * 2 ^ carryBits
      let carryBits2 := carryBits + 5
      if 8 ≤ carryBits2 then
        carry2 % 256 :: c32DecodeLoop rest (carry2 / 256) (carryBits2 - 8)
      else
        c32DecodeLoop rest carry2 carryBits2

/-- The byte-rebuilding tail of `c32_decode_ascii`: repack the 5-bit values
(given most significant first), strip the zero bytes that are packing
artifacts at the most significant end, and put back one zero byte per
leading zero symbol of the input. -/
def rebuildBytes (ds : List Nat) : List Nat :=
  let bytes := c32DecodeLoop ds.reverse 0 0
  List.replicate (ds.takeWhile (· == 0)).length 0
    ++ bytes.reverse.dropWhile (· == 0)

/-- `c32_decode_ascii`. -/
def c32_decode_ascii (s : List Nat) : C32Result (List Nat) :=
  match c32DigitsOf s with
  | none => .err .invalidCrockford32
  | some ds => .ok (rebuildBytes ds)

/-- `c32_decode`: the `is_ascii` guard then `c32_decode_ascii`. -/
def c32_decode (s : List Nat) : C32Result (List Nat) :=
  if s.all (· < 128) then c32_decode_ascii s else .err .invalidCrockford32

/-- Modelled from the spec: the SHA-256 primitive (the `sha2` crate used by
`c32.rs` is outside the given sources).  Spec §4.3/§6: a cryptographic
hash `HASH(bytes) -> 32 bytes` (SHA-256), double-applied with the first
4 bytes of the second digest as checksum.  This is a complete FIPS 180-4
SHA-256 over byte lists. -/
def sha256K : List Nat :=
  [1116352408, 1899447441, 3049323471, 3921009573, 961987163,
   1508970993, 2453635748, 2870763221, 3624381080, 310598401,
   607225278, 1426881987, 1925078388, 2162078206, 2614888103,
   3248222580, 3835390401, 4022224774, 264347078, 604807628,
   770255983, 1249150122, 1555081692, 1996064986, 2554220882,
   2821834349, 2952996808, 3210313671, 3336571891, 3584528711,
   113926993, 338241895, 666307205, 773529912, 1294757372,
   1396182291, 1695183700, 1986661051, 2177026350, 2456956037,
   2730485921, 2820302411, 3259730800, 3345764771, 3516065817,
   3600352804, 4094571909, 275423344, 430227734, 506948616,
   659060556, 883997877, 958139571, 1322822218, 1537002063,
   1747873779, 1955562222, 2024104815, 2227730452, 2361852424,
   2428436474, 2756734187, 3204031479, 3329325298]

/-- SHA-256 initial hash state. -/
def sha256H0 : List Nat :=
  [1779033703, 3144134277, 1013904242, 2773480762,
   1359893119, 2600822924, 528734635, 1541459225]

/-- Truncation to a 32-bit word. -/
def w32 (x : Nat) : Nat := x % 4294967296

/-- Right rotation of a 32-bit word by `n` (0 < n < 32) places. -/
def rotr32 (n x : Nat) : Nat := x / 2 ^ n + x % 2 ^ n * 2 ^ (32 - n)

/-- SHA-256 big sigma 0. -/
def bsig0 (x : Nat) : Nat :=
  Nat.xor (Nat.xor (rotr32 2 x) (rotr32 13 x)) (rotr32 22 x)

/-- SHA-256 big sigma 1. -/
def bsig1 (x : Nat) : Nat :=
  Nat.xor (Nat.xor (rotr32 6 x) (rotr32 11 x)) (rotr32 25 x)

/-- SHA-256 small sigma 0. -/
def ssig0 (x : Nat) : Nat :=
  Nat.xor (Nat.xor (rotr32 7 x) (rotr32 18 x)) (x / 2 ^ 3)

/-- SHA-256 small sigma 1. -/
def ssig1 (x : Nat) : Nat :=
  Nat.xor (Nat.xor (rotr32 17 x) (rotr32 19 x)) (x / 2 ^ 10)

/-- SHA-256 choose function; complement is within 32 bits. -/
def sha256Ch (e f g : Nat) : Nat :=
  Nat.xor (Nat.land e f) (Nat.land (4294967295 - e) g)

/-- SHA-256 majority function. -/
def sha256Maj (a b c : Nat) : Nat :=
  Nat.xor (Nat.xor (Nat.land a b) (Nat.land a c)) (Nat.land b c)

/-- Message-schedule extension: append `fuel` more words to `w`. -/
def sha256Extend : Nat → List Nat → List Nat
  | 0, w => w
  | fuel + 1, w =>
      let n := w.length
      let nw := w32 (ssig1 (w.getD (n - 2) 0) + w.getD (n - 7) 0
        + ssig0 (w.getD (n - 15) 0) + w.getD (n - 16) 0)
      sha256Extend fuel (w ++ [nw])

/-- One SHA-256 compression round on an 8-word state. -/
def sha256Round (st : List Nat) (k w : Nat) : List Nat :=
  match st with
  | [a, b, c, d, e, f, g, h] =>
      let t1 := w32 (h + bsig1 e + sha256Ch e f g + k + w)
      let t2 := w32 (bsig0 a + sha256Maj a b c)
      [w32 (t1 + t2), a, b, c, w32 (d + t1), e, f, g]
  | other => other

/-- Compress one 16-word block into the running state. -/
def sha256Compress (st : List Nat) (block : List Nat) : List Nat :=
  let ws := sha256Extend 48 block
  let fin := (List.zip sha256K ws).foldl (fun s p => sha256Round s p.1 p.2) st
  List.zipWith (fun x y => w32 (x + y)) st fin

/-- Process `n` 16-word blocks. -/
def sha256Blocks : Nat → List Nat → List Nat → List Nat
  | 0, st, _ => st
  | n + 1, st, ws => sha256Blocks n (sha256Compress st (ws.take 16)) (ws.drop 16)

/-- SHA-256 padding: a `0x80` byte, zeros to 56 mod 64, then the bit length
as 8 big-endian bytes. -/
def sha256Pad (msg : List Nat) : List Nat :=
  let len := msg.length
  let zeros := (119 - len % 64) % 64
  let bits := 8 * len
  msg ++ 128 :: List.replicate zeros 0
    ++ [bits / 2 ^ 56 % 256, bits / 2 ^ 48 % 256, bits / 2 ^ 40 % 256,
        bits / 2 ^ 32 % 256, bits / 2 ^ 24 % 256, bits / 2 ^ 16 % 256,
        bits / 2 ^ 8 % 256, bits % 256]

/-- Group bytes into big-endian 32-bit words. -/
def bytesToWords : List Nat → List Nat
  | b0 :: b1 :: b2 :: b3 :: rest =>
      (((b0 * 256 + b1) * 256 + b2) * 256 + b3) :: bytesToWords rest
  | _ => []

/-- SHA-256 of a byte list, as 32 bytes. -/
def sha256 (msg : List Nat) : List Nat :=
  let ws := bytesToWords (sha256Pad msg)
  let st := sha256Blocks (ws.length / 16) sha256H0 ws
  st.foldr
    (fun w acc => w / 2 ^ 24 % 256 :: w / 2 ^ 16 % 256 :: w / 2 ^ 8 % 256
      :: w % 256 :: acc) []

/-- The double-SHA-256 4-byte checksum of `version_byte || payload`
(spec §4.3 step 2, matching the `Sha256::digest(Sha256::new()...)` call
in `c32_check_encode_prefixed` / `c32_check_decode`). -/
def checksumOf (version : Nat) (data : List Nat) : List Nat :=
  (sha256 (sha256 (version :: data))).take 4

/-- `c32_check_encode_prefixed`.  The output vector has capacity
`get_max_c32_encode_output_len(data_len + 4) + 2`, the prefix and version
symbol occupy the first two cells and `c32_encode_to_buffer` writes into
the remaining `get_max_c32_encode_output_len(data_len + 4)` cells. -/
def c32_check_encode_prefixed (version : Nat) (data : List Nat) (pfx : Nat) :
    C32Result (List Nat) :=
  if 32 ≤ version then .err (.invalidVersion version)
  else
    let buffer := data ++ checksumOf version data
    match c32_encode_to_buffer buffer
        (get_max_c32_encode_output_len buffer.length) with
    | .ok encoded => .ok (pfx :: c32CharOf version :: encoded)
    | .err e => .err e
    | .panic => .panic

/-- Recombination of the four checksum bytes into a little-endian `u32`,
as in the `BadChecksum` diagnostics of `c32_check_decode`. -/
def sumU32 (bs : List Nat) : Nat :=
  bs.getD 0 0 + bs.getD 1 0 * 256 + bs.getD 2 0 * 65536 + bs.getD 3 0 * 16777216

/-- `c32_check_decode`.  The `.panic` on the version-symbol decode models
`c32_decode_ascii(&[*version]).unwrap()` (an invalid version symbol
panics the Rust function), and the `.panic` on an empty decoded version
models the `decoded_version[0]` index. -/
def c32_check_decode (s : List Nat) : C32Result (Nat × List Nat) :=
  if ¬ s.all (· < 128) then .err .invalidCrockford32
  else if s.length < 2 then .err .invalidCrockford32
  else
    let version := s.headD 0
    let data := s.drop 1
    match c32_decode_ascii data with
    | .err e => .err e
    | .panic => .panic
    | .ok dataSumBytes =>
      if dataSumBytes.length < 4 then .err .invalidCrockford32
      else
        let dataBytes := dataSumBytes.take (dataSumBytes.length - 4)
        let expectedSum := dataSumBytes.drop (dataSumBytes.length - 4)
        match c32_decode_ascii [version] with
        | .err _ => .panic
        | .panic => .panic
        | .ok decodedVersion =>
          match decodedVersion with
          | [] => .panic
          | v0 :: _ =>
            let computedSum := sha256 (sha256 (decodedVersion ++ dataBytes))
            if computedSum.getD 0 0 = expectedSum.getD 0 0
                ∧ computedSum.getD 1 0 = expectedSum.getD 1 0
                ∧ computedSum.getD 2 0 = expectedSum.getD 2 0
                ∧ computedSum.getD 3 0 = expectedSum.getD 3 0 then
              .ok (v0, dataBytes)
            else
              .err (.badChecksum (sumU32 computedSum) (sumU32 expectedSum))

/-- `c32_address_decode`.  On an input longer than 5 bytes the source takes
the byte slice `&c32_address_str[1..]`; for a (valid UTF-8) `&str` this
panics exactly when byte 1 is a UTF-8 continuation byte, i.e. when the
first character is multi-byte. -/
def c32_address_decode (s : List Nat) : C32Result (Nat × List Nat) :=
  if s.length ≤ 5 then .err .invalidCrockford32
  else if 128 ≤ s.getD 1 0 ∧ s.getD 1 0 < 192 then .panic
  else c32_check_decode (s.drop 1)

/-- `c32_address`: the address façade with the literal `S` (ASCII 83)
prefix. -/
def c32_address (version : Nat) (data : List Nat) : C32Result (List Nat) :=
  c32_check_encode_prefixed version data 83

/-- The successful output of `c32_address version data` for `version < 32`
(established by the theorems below). -/
def c32AddressStr (version : Nat) (data : List Nat) : List Nat :=
  83 :: c32CharOf version :: c32_encode (data ++ checksumOf version data)

/-- Value of a digit list in base `base`, least significant digit first.
This is a specification-side device used to relate the bit-packing loops
to the numbers they transport. -/
def leVal (base : Nat) : List Nat → Nat
  | [] => 0
  | d :: rest => d + base * leVal base rest

/-- Value of a digit list in base `base`, most significant digit first. -/
def beVal (base : Nat) (l : List Nat) : Nat := leVal base l.reverse

/-- The single-character replacements of claim C5: keep the character,
lowercase an uppercase letter, replace a character decoding to 0 by `O`
(79) or `o` (111), or replace a character decoding to 1 by `L` (76),
`l` (108), `I` (73) or `i` (105). -/
def normStep (c c2 : Nat) : Prop :=
  c2 = c
  ∨ (65 ≤ c ∧ c ≤ 90 ∧ c2 = c + 32)
  ∨ (lookupC32 c = some 0 ∧ (c2 = 79 ∨ c2 = 111))
  ∨ (lookupC32 c = some 1 ∧ (c2 = 76 ∨ c2 = 108 ∨ c2 = 73 ∨ c2 = 105))

/-- Everything the decode path observes about a single character: its
decode-table entry, whether it passes the ASCII test, and whether it is a
UTF-8 continuation byte (the `&str[1..]` slicing check). -/
def normCompat (c c2 : Nat) : Prop :=
  lookupC32 c2 = lookupC32 c ∧ (c < 128 ↔ c2 < 128)
    ∧ ((128 ≤ c ∧ c < 192) ↔ (128 ≤ c2 ∧ c2 < 192))

instance (c c2 : Nat) : Decidable (normStep c c2) := by
  unfold normStep; infer_instance

instance (c c2 : Nat) : Decidable (normCompat c c2) := by
  unfold normCompat; infer_instance

end C32

namespace C32

theorem leVal_append (base : Nat) (xs ys : List Nat) :
    leVal base (xs ++ ys) = leVal base xs + base ^ xs.length * leVal base ys := by
  induction xs with
  | nil => simp [leVal]
  | cons x rest ih =>
      simp only [List.cons_append, leVal, List.append_eq, ih, List.length_cons,
        pow_succ]
      ring

theorem beVal_cons (base d : Nat) (rest : List Nat) :
    beVal base (d :: rest) = d * base ^ rest.length + beVal base rest := by
  simp only [beVal, List.reverse_cons, leVal_append, List.length_reverse, leVal]
  ring

theorem beVal_nil (base : Nat) : beVal base [] = 0 := rfl

theorem beVal_reverse (base : Nat) (l : List Nat) :
    beVal base l.reverse = leVal base l := by
  simp [beVal]

theorem beVal_replicate_zero_append (base k : Nat) (l : List Nat) :
    beVal base (List.replicate k 0 ++ l) = beVal base l := by
  induction k with
  | zero => simp
  | succ n ih =>
      simpa [List.replicate_succ, beVal_cons] using ih

theorem leVal_lt (base : Nat) (hb : 0 < base) (l : List Nat)
    (h : ∀ x ∈ l, x < base) : leVal base l < base ^ l.length := by
  clear hb
  induction l with
  | nil => simp [leVal]
  | cons d rest ih =>
      have hd : d < base := h d (by simp)
      have hr := ih (fun x hx => h x (by simp [hx]))
      have h2 : base * (leVal base rest + 1) ≤ base * base ^ rest.length :=
        Nat.mul_le_mul_left base hr
      rw [Nat.mul_add, Nat.mul_one] at h2
      simp only [leVal, List.length_cons, pow_succ]
      rw [Nat.mul_comm (base ^ rest.length) base]
      omega

theorem beVal_lt (base : Nat) (hb : 0 < base) (l : List Nat)
    (h : ∀ x ∈ l, x < base) : beVal base l < base ^ l.length := by
  have := leVal_lt base hb l.reverse (fun x hx => h x (List.mem_reverse.mp hx))
  simpa [beVal] using this

theorem beVal_head_ge (base d : Nat) (rest : List Nat) (hd : d ≠ 0) :
    base ^ rest.length ≤ beVal base (d :: rest) := by
  rw [beVal_cons]
  have : 1 * base ^ rest.length ≤ d * base ^ rest.length :=
    Nat.mul_le_mul_right _ (by omega)
  omega

theorem digit_split_eq (B d1 d2 v1 v2 : Nat)
    (hv : d1 * B + v1 = d2 * B + v2) (h1 : v1 < B) (h2 : v2 < B) :
    d1 = d2 ∧ v1 = v2 := by
  have hd : d1 = d2 := by
    rcases Nat.lt_trichotomy d1 d2 with h | h | h
    · exfalso
      have hle : d1 * B + B ≤ d2 * B := by
        calc d1 * B + B = (d1 + 1) * B := by ring
        _ ≤ d2 * B := Nat.mul_le_mul_right B h
      have : d1 * B + B ≤ d1 * B + v1 := by
        rw [hv]; exact le_trans hle (Nat.le_add_right _ _)
      omega
    · exact h
    · exfalso
      have hle : d2 * B + B ≤ d1 * B := by
        calc d2 * B + B = (d2 + 1) * B := by ring
        _ ≤ d1 * B := Nat.mul_le_mul_right B h
      have : d2 * B + B ≤ d2 * B + v2 := by
        rw [← hv]; exact le_trans hle (Nat.le_add_right _ _)
      omega
  subst hd
  exact ⟨rfl, by omega⟩

theorem beVal_inj_of_length (base : Nat) (hb : 0 < base) :
    ∀ l1 l2 : List Nat, l1.length = l2.length →
    (∀ x ∈ l1, x < base) → (∀ x ∈ l2, x < base) →
    beVal base l1 = beVal base l2 → l1 = l2 := by
  intro l1
  induction l1 with
  | nil =>
      intro l2 hlen _ _ _
      cases l2 with
      | nil => rfl
      | cons y t => simp at hlen
  | cons d1 r1 ih =>
      intro l2 hlen h1 h2 hv
      cases l2 with
      | nil => simp at hlen
      | cons d2 r2 =>
          have hlen2 : r1.length = r2.length := by simpa using hlen
          rw [beVal_cons, beVal_cons, hlen2] at hv
          have hv1 : beVal base r1 < base ^ r2.length := by
            have := beVal_lt base hb r1 (fun x hx => h1 x (by simp [hx]))
            rwa [hlen2] at this
          have hv2 : beVal base r2 < base ^ r2.length :=
            beVal_lt base hb r2 (fun x hx => h2 x (by simp [hx]))
          obtain ⟨hd, hr⟩ := digit_split_eq (base ^ r2.length) d1 d2
            (beVal base r1) (beVal base r2) hv hv1 hv2
          have := ih r2 hlen2 (fun x hx => h1 x (by simp [hx]))
            (fun x hx => h2 x (by simp [hx])) hr
          rw [hd, this]

theorem beVal_canonical_eq (base : Nat) (hb : 2 ≤ base) (l1 l2 : List Nat)
    (h1 : ∀ x ∈ l1, x < base) (h2 : ∀ x ∈ l2, x < base)
    (hz1 : l1 = [] ∨ l1.headD 0 ≠ 0) (hz2 : l2 = [] ∨ l2.headD 0 ≠ 0)
    (hv : beVal base l1 = beVal base l2) : l1 = l2 := by
  have key : ∀ m1 m2 : List Nat, (∀ x ∈ m1, x < base) → (∀ x ∈ m2, x < base) →
      (m1 = [] ∨ m1.headD 0 ≠ 0) → (m2 = [] ∨ m2.headD 0 ≠ 0) →
      beVal base m1 = beVal base m2 → m1.length < m2.length → False := by
    intro m1 m2 hm1 hm2 _ hzz2 hvv hlt
    cases m2 with
    | nil => simp at hlt
    | cons d r =>
        have hd : d ≠ 0 := by
          rcases hzz2 with h | h
          · exact absurd h (by simp)
          · simpa using h
        have hge : base ^ r.length ≤ beVal base (d :: r) := beVal_head_ge base d r hd
        have hlt1 : beVal base m1 < base ^ m1.length := beVal_lt base (by omega) m1 hm1
        have hle : base ^ m1.length ≤ base ^ r.length :=
          Nat.pow_le_pow_right (by omega) (by simpa using Nat.lt_succ_iff.mp hlt)
        omega
  rcases Nat.lt_trichotomy l1.length l2.length with h | h | h
  · exact absurd (key l1 l2 h1 h2 hz1 hz2 hv h) (by simp)
  · exact beVal_inj_of_length base (by omega) l1 l2 h h1 h2 hv
  · exact absurd (key l2 l1 h2 h1 hz2 hz1 hv.symm h) (by simp)

theorem takeWhile_zero_eq_replicate (l : List Nat) :
    l.takeWhile (· == 0) = List.replicate (l.takeWhile (· == 0)).length 0 := by
  induction l with
  | nil => simp
  | cons d rest ih =>
      by_cases hd : d = 0
      · subst hd
        simpa [List.takeWhile_cons, List.replicate_succ] using ih
      · simp [List.takeWhile_cons, hd]

theorem split_leading_zeros (l : List Nat) :
    l = List.replicate (l.takeWhile (· == 0)).length 0 ++ l.dropWhile (· == 0) := by
  conv_lhs => rw [← List.takeWhile_append_dropWhile (p := (· == 0)) (l := l)]
  rw [← takeWhile_zero_eq_replicate]

theorem dropWhile_zero_head (l : List Nat) :
    l.dropWhile (· == 0) = [] ∨ (l.dropWhile (· == 0)).headD 0 ≠ 0 := by
  induction l with
  | nil => left; rfl
  | cons d rest ih =>
      by_cases hd : d = 0
      · subst hd; simpa [List.dropWhile_cons] using ih
      · right; simp [List.dropWhile_cons, hd]

theorem takeWhile_replicate_zero_append (k : Nat) (D : List Nat)
    (hD : D = [] ∨ D.headD 0 ≠ 0) :
    ((List.replicate k 0 ++ D).takeWhile (· == 0)).length = k := by
  induction k with
  | zero =>
      rcases hD with h | h
      · subst h; simp
      · cases D with
        | nil => simp
        | cons d r =>
            simp only [List.headD_cons] at h
            have hd : (d == 0) = false := by simpa using h
            simp only [List.replicate_zero, List.nil_append, List.takeWhile_cons,
              hd]
            simp
  | succ n ih =>
      rw [List.replicate_succ, List.cons_append, List.takeWhile_cons,
        if_pos (show ((0 : Nat) == 0) = true from rfl), List.length_cons, ih]

theorem beVal_dropWhile_zero (base : Nat) (l : List Nat) :
    beVal base (l.dropWhile (· == 0)) = beVal base l := by
  conv_rhs => rw [split_leading_zeros l]
  rw [beVal_replicate_zero_append]

theorem c32EncodeLoop_leVal (l : List Nat) : ∀ carry cb : Nat,
    (∀ x ∈ l, x < 256) → carry < 2 ^ cb → cb < 5 →
    leVal 32 (c32EncodeLoop l carry cb) = carry + 2 ^ cb * leVal 256 l := by
  induction l with
  | nil =>
      intro carry cb h hc hcb
      simp only [c32EncodeLoop, leVal]
      split
      · simp [leVal]
      · next hpos =>
          have : cb = 0 := by omega
          subst this
          simp at hc
          simp [hc, leVal]
  | cons b rest ih =>
      intro carry cb h hc hcb
      have hb : b < 256 := h b (List.mem_cons_self b rest)
      have hrest : ∀ x ∈ rest, x < 256 := fun x hx => h x (List.mem_cons_of_mem b hx)
      interval_cases cb <;> simp only [c32EncodeLoop] <;> norm_num <;>
        simp only [leVal]
      · rw [ih (b / 32) 3 hrest (by omega) (by norm_num)]
        have := leVal 256 rest
        omega
      · rw [ih (b / 16) 4 hrest (by omega) (by norm_num)]
        omega
      · rw [ih (b / 8 / 32) 0 hrest (by omega) (by norm_num)]
        omega
      · rw [ih (b / 4 / 32) 1 hrest (by omega) (by norm_num)]
        omega
      · rw [ih (b / 2 / 32) 2 hrest (by omega) (by norm_num)]
        omega

theorem c32EncodeLoop_lt (l : List Nat) : ∀ carry cb : Nat,
    (∀ x ∈ l, x < 256) → carry < 2 ^ cb → cb < 5 →
    ∀ d ∈ c32EncodeLoop l carry cb, d < 32 := by
  induction l with
  | nil =>
      intro carry cb h hc hcb d hd
      simp only [c32EncodeLoop] at hd
      split at hd
      · simp at hd
        have : (2 : Nat) ^ cb ≤ 2 ^ 4 := Nat.pow_le_pow_right (by norm_num) (by omega)
        norm_num at this
        omega
      · simp at hd
  | cons b rest ih =>
      intro carry cb h hc hcb d hd
      have hb : b < 256 := h b (List.mem_cons_self b rest)
      have hrest : ∀ x ∈ rest, x < 256 := fun x hx => h x (List.mem_cons_of_mem b hx)
      interval_cases cb <;> simp only [c32EncodeLoop] at hd <;> norm_num at hd <;>
        rcases hd with hd | hd
      · omega
      · exact ih (b / 32) 3 hrest (by omega) (by norm_num) d hd
      · omega
      · exact ih (b / 16) 4 hrest (by omega) (by norm_num) d hd
      · omega
      · rcases hd with hd | hd
        · omega
        · exact ih (b / 8 / 32) 0 hrest (by omega) (by norm_num) d hd
      · omega
      · rcases hd with hd | hd
        · omega
        · exact ih (b / 4 / 32) 1 hrest (by omega) (by norm_num) d hd
      · omega
      · rcases hd with hd | hd
        · omega
        · exact ih (b / 2 / 32) 2 hrest (by omega) (by norm_num) d hd

theorem c32EncodeLoop_length (l : List Nat) : ∀ carry cb : Nat, cb < 5 →
    (c32EncodeLoop l carry cb).length = (8 * l.length + cb + 4) / 5 := by
  induction l with
  | nil =>
      intro carry cb hcb
      simp only [c32EncodeLoop]
      split <;> simp <;> omega
  | cons b rest ih =>
      intro carry cb hcb
      interval_cases cb <;> simp only [c32EncodeLoop] <;> norm_num <;>
        rw [ih _ _ (by norm_num)] <;> omega

theorem c32DecodeLoop_leVal (ds : List Nat) : ∀ carry cb : Nat,
    (∀ d ∈ ds, d < 32) → carry < 2 ^ cb → cb < 8 →
    leVal 256 (c32DecodeLoop ds carry cb) = carry + 2 ^ cb * leVal 32 ds := by
  induction ds with
  | nil =>
      intro carry cb h hc hcb
      simp only [c32DecodeLoop, leVal]
      split
      · simp [leVal]
      · next hpos =>
          have : cb = 0 := by omega
          subst this
          simp at hc
          simp [hc, leVal]
  | cons d rest ih =>
      intro carry cb h hc hcb
      have hd : d < 32 := h d (List.mem_cons_self d rest)
      have hrest : ∀ x ∈ rest, x < 32 := fun x hx => h x (List.mem_cons_of_mem d hx)
      interval_cases cb <;> simp only [c32DecodeLoop] <;> norm_num <;>
        simp only [leVal]
      · rw [ih (carry + d) 5 hrest (by omega) (by norm_num)]
        omega
      · rw [ih (carry + d * 2) 6 hrest (by omega) (by norm_num)]
        omega
      · rw [ih (carry + d * 4) 7 hrest (by omega) (by norm_num)]
        omega
      · rw [ih ((carry + d * 8) / 256) 0 hrest (by omega) (by norm_num)]
        omega
      · rw [ih ((carry + d * 16) / 256) 1 hrest (by omega) (by norm_num)]
        omega
      · rw [ih ((carry + d * 32) / 256) 2 hrest (by omega) (by norm_num)]
        omega
      · rw [ih ((carry + d * 64) / 256) 3 hrest (by omega) (by norm_num)]
        omega
      · rw [ih ((carry + d * 128) / 256) 4 hrest (by omega) (by norm_num)]
        omega

theorem c32DecodeLoop_lt (ds : List Nat) : ∀ carry cb : Nat,
    (∀ d ∈ ds, d < 32) → carry < 2 ^ cb → cb < 8 →
    ∀ x ∈ c32DecodeLoop ds carry cb, x < 256 := by
  induction ds with
  | nil =>
      intro carry cb h hc hcb x hx
      simp only [c32DecodeLoop] at hx
      split at hx
      · simp at hx
        have : (2 : Nat) ^ cb ≤ 2 ^ 8 := Nat.pow_le_pow_right (by norm_num) (by omega)
        simp at this
        omega
      · simp at hx
  | cons d rest ih =>
      intro carry cb h hc hcb x hx
      have hd : d < 32 := h d (List.mem_cons_self d rest)
      have hrest : ∀ y ∈ rest, y < 32 := fun y hy => h y (List.mem_cons_of_mem d hy)
      interval_cases cb <;> simp only [c32DecodeLoop] at hx <;> norm_num at hx
      · exact ih (carry + d) 5 hrest (by omega) (by norm_num) x hx
      · exact ih (carry + d * 2) 6 hrest (by omega) (by norm_num) x hx
      · exact ih (carry + d * 4) 7 hrest (by omega) (by norm_num) x hx
      · rcases hx with hx | hx
        · omega
        · exact ih ((carry + d * 8) / 256) 0 hrest (by omega) (by norm_num) x hx
      · rcases hx with hx | hx
        · omega
        · exact ih ((carry + d * 16) / 256) 1 hrest (by omega) (by norm_num) x hx
      · rcases hx with hx | hx
        · omega
        · exact ih ((carry + d * 32) / 256) 2 hrest (by omega) (by norm_num) x hx
      · rcases hx with hx | hx
        · omega
        · exact ih ((carry + d * 64) / 256) 3 hrest (by omega) (by norm_num) x hx
      · rcases hx with hx | hx
        · omega
        · exact ih ((carry + d * 128) / 256) 4 hrest (by omega) (by norm_num) x hx

theorem pow32_eq (n : Nat) : (32 : Nat) ^ n = 2 ^ (5 * n) := by
  rw [pow_mul]; norm_num

theorem pow256_eq (n : Nat) : (256 : Nat) ^ n = 2 ^ (8 * n) := by
  rw [pow_mul]; norm_num

theorem c32_lookup_char : ∀ d, d < 32 → lookupC32 (c32CharOf d) = some d := by decide

theorem c32_char_lt128 : ∀ d, d < 32 → c32CharOf d < 128 := by decide

theorem c32_char_ne_48 : ∀ d, d < 32 → d ≠ 0 → c32CharOf d ≠ 48 := by decide

theorem lookupC32_lt128 (c v : Nat) (h : lookupC32 c = some v) : c < 128 := by
  by_contra hc
  push_neg at hc
  have hnone : C32_CHARACTERS_MAP[c]? = none := by
    apply List.getElem?_eq_none
    have hlen : C32_CHARACTERS_MAP.length = 128 := by rfl
    omega
  simp [lookupC32, hnone] at h

theorem c32DigitsOf_map_char (E : List Nat) (h : ∀ d ∈ E, d < 32) :
    c32DigitsOf (E.map c32CharOf) = some E := by
  induction E with
  | nil => rfl
  | cons d rest ih =>
      have hd := c32_lookup_char d (h d (List.mem_cons_self d rest))
      have hr := ih (fun x hx => h x (List.mem_cons_of_mem d hx))
      simp [c32DigitsOf, hd, hr]

theorem c32DigitsOf_ascii (s : List Nat) : ∀ ds : List Nat,
    c32DigitsOf s = some ds → ∀ c ∈ s, c < 128 := by
  induction s with
  | nil => intro ds _ c hc; simp at hc
  | cons c0 rest ih =>
      intro ds h c hc
      simp only [c32DigitsOf] at h
      cases hl : lookupC32 c0 with
      | none => rw [hl] at h; simp at h
      | some v =>
          cases hr : c32DigitsOf rest with
          | none => rw [hl, hr] at h; simp at h
          | some ds2 =>
              rcases List.mem_cons.mp hc with hc | hc
              · subst hc; exact lookupC32_lt128 c v hl
              · exact ih ds2 hr c hc

theorem c32EncodeDigits_lt (b : List Nat) (hb : ∀ x ∈ b, x < 256) :
    ∀ d ∈ c32EncodeDigits b, d < 32 := by
  intro d hd
  simp only [c32EncodeDigits] at hd
  rcases List.mem_append.mp hd with h | h
  · have := List.eq_of_mem_replicate h; omega
  · have h2 : d ∈ (c32EncodeLoop b.reverse 0 0).reverse :=
      (List.dropWhile_sublist _).mem h
    exact c32EncodeLoop_lt b.reverse 0 0
      (fun x hx => hb x (List.mem_reverse.mp hx)) (by norm_num) (by norm_num)
      d (List.mem_reverse.mp h2)

theorem c32EncodeDigits_beVal (b : List Nat) (hb : ∀ x ∈ b, x < 256) :
    beVal 32 (c32EncodeDigits b) = beVal 256 b := by
  simp only [c32EncodeDigits]
  rw [beVal_replicate_zero_append, beVal_dropWhile_zero, beVal_reverse,
    c32EncodeLoop_leVal b.reverse 0 0
      (fun x hx => hb x (List.mem_reverse.mp hx)) (by norm_num) (by norm_num)]
  simp [beVal]

theorem rebuildBytes_encodeDigits (b : List Nat) (hb : ∀ x ∈ b, x < 256) :
    rebuildBytes (c32EncodeDigits b) = b := by
  have hdig : ∀ d ∈ c32EncodeDigits b, d < 32 := c32EncodeDigits_lt b hb
  have hE : c32EncodeDigits b
      = List.replicate (b.takeWhile (· == 0)).length 0
        ++ (c32EncodeLoop b.reverse 0 0).reverse.dropWhile (· == 0) := rfl
  have hDhead := dropWhile_zero_head (c32EncodeLoop b.reverse 0 0).reverse
  have hcount : ((c32EncodeDigits b).takeWhile (· == 0)).length
      = (b.takeWhile (· == 0)).length := by
    rw [hE]
    exact takeWhile_replicate_zero_append _ _ hDhead
  have hbytesVal : leVal 256 (c32DecodeLoop (c32EncodeDigits b).reverse 0 0)
      = beVal 256 b := by
    rw [c32DecodeLoop_leVal (c32EncodeDigits b).reverse 0 0
      (fun x hx => hdig x (List.mem_reverse.mp hx)) (by norm_num) (by norm_num)]
    have : leVal 32 (c32EncodeDigits b).reverse = beVal 32 (c32EncodeDigits b) := by
      simp [beVal]
    rw [this, c32EncodeDigits_beVal b hb]
    ring
  have hbytesLt : ∀ x ∈ c32DecodeLoop (c32EncodeDigits b).reverse 0 0, x < 256 :=
    c32DecodeLoop_lt (c32EncodeDigits b).reverse 0 0
      (fun x hx => hdig x (List.mem_reverse.mp hx)) (by norm_num) (by norm_num)
  have hBval : beVal 256
      ((c32DecodeLoop (c32EncodeDigits b).reverse 0 0).reverse.dropWhile (· == 0))
      = beVal 256 b := by
    rw [beVal_dropWhile_zero, beVal_reverse, hbytesVal]
  have hBlt : ∀ x ∈
      (c32DecodeLoop (c32EncodeDigits b).reverse 0 0).reverse.dropWhile (· == 0),
      x < 256 := by
    intro x hx
    exact hbytesLt x (List.mem_reverse.mp ((List.dropWhile_sublist _).mem hx))
  have hBhead := dropWhile_zero_head
    (c32DecodeLoop (c32EncodeDigits b).reverse 0 0).reverse
  have hb5lt : ∀ x ∈ b.dropWhile (· == 0), x < 256 := by
    intro x hx
    exact hb x ((List.dropWhile_sublist _).mem hx)
  have hb5head := dropWhile_zero_head b
  have hb5val : beVal 256 (b.dropWhile (· == 0)) = beVal 256 b :=
    beVal_dropWhile_zero 256 b
  have hBb5 :
      (c32DecodeLoop (c32EncodeDigits b).reverse 0 0).reverse.dropWhile (· == 0)
      = b.dropWhile (· == 0) :=
    beVal_canonical_eq 256 (by norm_num) _ _ hBlt hb5lt hBhead hb5head
      (by rw [hBval, hb5val])
  simp only [rebuildBytes]
  rw [hcount, hBb5]
  exact (split_leading_zeros b).symm

theorem c32_decode_ascii_encode (b : List Nat) (hb : ∀ x ∈ b, x < 256) :
    c32_decode_ascii (c32_encode b) = .ok b := by
  have hdig : ∀ d ∈ c32EncodeDigits b, d < 32 := c32EncodeDigits_lt b hb
  show c32_decode_ascii ((c32EncodeDigits b).map c32CharOf) = .ok b
  simp only [c32_decode_ascii]
  rw [c32DigitsOf_map_char _ hdig]
  show C32Result.ok (rebuildBytes (c32EncodeDigits b)) = C32Result.ok b
  rw [rebuildBytes_encodeDigits b hb]

theorem c32_encode_ascii (b : List Nat) (hb : ∀ x ∈ b, x < 256) :
    ∀ c ∈ c32_encode b, c < 128 := by
  intro c hc
  simp only [c32_encode, List.mem_map] at hc
  obtain ⟨d, hd, rfl⟩ := hc
  exact c32_char_lt128 d (c32EncodeDigits_lt b hb d hd)

theorem sha256Round_length (st : List Nat) (k w : Nat) :
    (sha256Round st k w).length = st.length := by
  simp only [sha256Round]
  split
  · rfl
  · rfl

theorem sha256_foldl_length (l : List (Nat × Nat)) : ∀ st : List Nat,
    (l.foldl (fun s p => sha256Round s p.1 p.2) st).length = st.length := by
  induction l with
  | nil => intro st; rfl
  | cons p rest ih =>
      intro st
      simp only [List.foldl_cons]
      rw [ih (sha256Round st p.1 p.2), sha256Round_length]

theorem sha256Compress_length (st block : List Nat) (h : st.length = 8) :
    (sha256Compress st block).length = 8 := by
  simp only [sha256Compress]
  rw [List.length_zipWith, sha256_foldl_length, h]
  rfl

theorem sha256Blocks_length : ∀ (n : Nat) (st ws : List Nat), st.length = 8 →
    (sha256Blocks n st ws).length = 8 := by
  intro n
  induction n with
  | zero => intro st ws h; exact h
  | succ m ih =>
      intro st ws h
      exact ih _ _ (sha256Compress_length st (ws.take 16) h)

theorem sha256_length (msg : List Nat) : (sha256 msg).length = 32 := by
  have hfold : ∀ st : List Nat,
      (st.foldr (fun w acc => w / 2 ^ 24 % 256 :: w / 2 ^ 16 % 256
        :: w / 2 ^ 8 % 256 :: w % 256 :: acc) []).length = 4 * st.length := by
    intro st
    induction st with
    | nil => rfl
    | cons w rest ih => simp only [List.foldr_cons, List.length_cons, ih]; ring
  simp only [sha256]
  rw [hfold, sha256Blocks_length _ _ _ (by rfl)]

theorem sha256_all_lt (msg : List Nat) : ∀ x ∈ sha256 msg, x < 256 := by
  have hfold : ∀ st : List Nat, ∀ x ∈ st.foldr
      (fun w acc => w / 2 ^ 24 % 256 :: w / 2 ^ 16 % 256
        :: w / 2 ^ 8 % 256 :: w % 256 :: acc) ([] : List Nat), x < 256 := by
    intro st
    induction st with
    | nil => intro x hx; simp at hx
    | cons w rest ih =>
        intro x hx
        simp only [List.foldr_cons, List.mem_cons] at hx
        rcases hx with h | h | h | h | h
        · omega
        · omega
        · omega
        · omega
        · exact ih x h
  intro x hx
  exact hfold _ x hx

theorem checksumOf_length (v : Nat) (data : List Nat) :
    (checksumOf v data).length = 4 := by
  simp [checksumOf, List.length_take, sha256_length]

theorem checksumOf_lt (v : Nat) (data : List Nat) :
    ∀ x ∈ checksumOf v data, x < 256 := by
  intro x hx
  exact sha256_all_lt _ x ((List.take_sublist _ _).mem hx)

theorem encode_pack_length (b : List Nat) :
    (c32EncodeLoop b.reverse 0 0).length = (8 * b.length + 4) / 5 := by
  rw [c32EncodeLoop_length b.reverse 0 0 (by norm_num), List.length_reverse]

theorem pack_length_le_max (n : Nat) :
    (8 * n + 4) / 5 ≤ get_max_c32_encode_output_len n := by
  simp only [get_max_c32_encode_output_len]
  have h5 : n % 5 < 5 := Nat.mod_lt _ (by norm_num)
  have hdm : 5 * (n / 5) + n % 5 = n := Nat.div_add_mod n 5
  set r5 := n % 5 with hr5
  interval_cases r5 <;> omega

theorem c32EncodeDigits_split (b : List Nat) :
    c32EncodeDigits b
      = List.replicate (b.takeWhile (· == 0)).length 0
        ++ (c32EncodeLoop b.reverse 0 0).reverse.dropWhile (· == 0) := rfl

theorem length_split_leading (b : List Nat) :
    b.length = (b.takeWhile (· == 0)).length + (b.dropWhile (· == 0)).length := by
  conv_lhs => rw [split_leading_zeros b]
  simp

theorem c32EncodeDigits_length_le (b : List Nat) (hb : ∀ x ∈ b, x < 256) :
    (c32EncodeDigits b).length ≤ get_max_c32_encode_output_len b.length := by
  have hlenE : (c32EncodeDigits b).length
      = (b.takeWhile (· == 0)).length
        + ((c32EncodeLoop b.reverse 0 0).reverse.dropWhile (· == 0)).length := by
    rw [c32EncodeDigits_split]; simp
  have hn := length_split_leading b
  cases hDc : (c32EncodeLoop b.reverse 0 0).reverse.dropWhile (· == 0) with
  | nil =>
      rw [hlenE, hDc]
      simp only [get_max_c32_encode_output_len, List.length_nil]
      omega
  | cons d r =>
      have hdne : d ≠ 0 := by
        rcases dropWhile_zero_head (c32EncodeLoop b.reverse 0 0).reverse with h | h
        · rw [hDc] at h; simp at h
        · rw [hDc] at h; simpa using h
      have hval : beVal 32 ((c32EncodeLoop b.reverse 0 0).reverse.dropWhile (· == 0))
          = beVal 256 b := by
        have h1 := c32EncodeDigits_beVal b hb
        rw [c32EncodeDigits_split, beVal_replicate_zero_append] at h1
        exact h1
      have hge : (32 : Nat) ^ r.length
          ≤ beVal 32 ((c32EncodeLoop b.reverse 0 0).reverse.dropWhile (· == 0)) := by
        rw [hDc]; exact beVal_head_ge 32 d r hdne
      have hlt : beVal 256 b < 256 ^ (b.dropWhile (· == 0)).length := by
        rw [← beVal_dropWhile_zero]
        exact beVal_lt 256 (by norm_num) _
          (fun x hx => hb x ((List.dropWhile_sublist _).mem hx))
      have hcomb : (32 : Nat) ^ r.length < 256 ^ (b.dropWhile (· == 0)).length :=
        lt_of_le_of_lt (hval ▸ hge) hlt
      rw [pow32_eq, pow256_eq] at hcomb
      have hexp := (Nat.pow_lt_pow_iff_right (by norm_num : 1 < 2)).mp hcomb
      rw [hlenE, hDc]
      simp only [List.length_cons, get_max_c32_encode_output_len]
      have h5 : b.length % 5 < 5 := Nat.mod_lt _ (by norm_num)
      have hdm : 5 * (b.length / 5) + b.length % 5 = b.length :=
        Nat.div_add_mod b.length 5
      set r5 := b.length % 5 with hr5
      interval_cases r5 <;> omega

theorem c32EncodeDigits_length_ge (b : List Nat) (hb : ∀ x ∈ b, x < 256) :
    b.length ≤ (c32EncodeDigits b).length := by
  have hlenE : (c32EncodeDigits b).length
      = (b.takeWhile (· == 0)).length
        + ((c32EncodeLoop b.reverse 0 0).reverse.dropWhile (· == 0)).length := by
    rw [c32EncodeDigits_split]; simp
  have hn := length_split_leading b
  cases hb5 : b.dropWhile (· == 0) with
  | nil =>
      rw [hlenE]
      rw [hb5] at hn
      simp at hn
      omega
  | cons c r2 =>
      have hcne : c ≠ 0 := by
        rcases dropWhile_zero_head b with h | h
        · rw [hb5] at h; simp at h
        · rw [hb5] at h; simpa using h
      have hge : (256 : Nat) ^ r2.length ≤ beVal 256 b := by
        have := beVal_head_ge 256 c r2 hcne
        rw [← hb5, beVal_dropWhile_zero] at this
        exact this
      have hval : beVal 32 ((c32EncodeLoop b.reverse 0 0).reverse.dropWhile (· == 0))
          = beVal 256 b := by
        have h1 := c32EncodeDigits_beVal b hb
        rw [c32EncodeDigits_split, beVal_replicate_zero_append] at h1
        exact h1
      have hDlt : ∀ x ∈ (c32EncodeLoop b.reverse 0 0).reverse.dropWhile (· == 0),
          x < 32 := by
        intro x hx
        apply c32EncodeDigits_lt b hb
        rw [c32EncodeDigits_split]
        exact List.mem_append.mpr (Or.inr hx)
      have hlt : beVal 256 b
          < 32 ^ ((c32EncodeLoop b.reverse 0 0).reverse.dropWhile (· == 0)).length := by
        rw [← hval]
        exact beVal_lt 32 (by norm_num) _ hDlt
      have hcomb : (256 : Nat) ^ r2.length
          < 32 ^ ((c32EncodeLoop b.reverse 0 0).reverse.dropWhile (· == 0)).length :=
        lt_of_le_of_lt hge hlt
      rw [pow32_eq, pow256_eq] at hcomb
      have hexp := (Nat.pow_lt_pow_iff_right (by norm_num : 1 < 2)).mp hcomb
      rw [hlenE]
      rw [hb5] at hn
      simp only [List.length_cons] at hn
      omega

theorem c32_encode_length_le (b : List Nat) (hb : ∀ x ∈ b, x < 256) :
    (c32_encode b).length ≤ get_max_c32_encode_output_len b.length := by
  simp only [c32_encode, List.length_map]
  exact c32EncodeDigits_length_le b hb

theorem c32_encode_length_ge (b : List Nat) (hb : ∀ x ∈ b, x < 256) :
    b.length ≤ (c32_encode b).length := by
  simp only [c32_encode, List.length_map]
  exact c32EncodeDigits_length_ge b hb

theorem c32_encode_to_buffer_ok (b : List Nat) (hb : ∀ x ∈ b, x < 256) :
    c32_encode_to_buffer b (get_max_c32_encode_output_len b.length)
      = .ok (c32_encode b) := by
  have h1 : (c32EncodeLoop b.reverse 0 0).length
      ≤ get_max_c32_encode_output_len b.length := by
    rw [encode_pack_length]; exact pack_length_le_max b.length
  have h2 := c32EncodeDigits_length_le b hb
  simp only [c32_encode_to_buffer]
  rw [if_neg (by omega), if_neg (by omega), if_neg (by omega)]

theorem getD_take_lt (l : List Nat) (n i : Nat) (h : i < n) :
    (l.take n).getD i 0 = l.getD i 0 := by
  rw [List.getD_eq_getElem?_getD, List.getD_eq_getElem?_getD, List.getElem?_take,
    if_pos h]

theorem c32_check_encode_ok (v : Nat) (data : List Nat) (hv : v < 32)
    (hd : ∀ x ∈ data, x < 256) :
    c32_check_encode_prefixed v data 83 = .ok (c32AddressStr v data) := by
  have hbuf : ∀ x ∈ data ++ checksumOf v data, x < 256 := by
    intro x hx
    rcases List.mem_append.mp hx with h | h
    · exact hd x h
    · exact checksumOf_lt v data x h
  simp only [c32_check_encode_prefixed]
  rw [if_neg (by omega), c32_encode_to_buffer_ok _ hbuf]
  rfl

theorem c32_decode_ascii_single : ∀ v, v < 32 →
    c32_decode_ascii [c32CharOf v] = .ok [v] := by decide

theorem c32_check_decode_addr (v : Nat) (data : List Nat) (hv : v < 32)
    (hd : ∀ x ∈ data, x < 256) :
    c32_check_decode (c32CharOf v :: c32_encode (data ++ checksumOf v data))
      = .ok (v, data) := by
  have hxlt : ∀ y ∈ data ++ checksumOf v data, y < 256 := by
    intro y hy
    rcases List.mem_append.mp hy with h | h
    · exact hd y h
    · exact checksumOf_lt v data y h
  have hxlen : (data ++ checksumOf v data).length = data.length + 4 := by
    simp [checksumOf_length]
  have hClen : (data ++ checksumOf v data).length
      ≤ (c32_encode (data ++ checksumOf v data)).length :=
    c32_encode_length_ge _ hxlt
  have hascii : ((c32CharOf v :: c32_encode (data ++ checksumOf v data)).all
      (· < 128)) = true := by
    rw [List.all_eq_true]
    intro y hy
    simp only [decide_eq_true_eq]
    rcases List.mem_cons.mp hy with h | h
    · subst h; exact c32_char_lt128 v hv
    · exact c32_encode_ascii _ hxlt y h
  simp only [c32_check_decode]
  rw [if_neg (not_not_intro hascii)]
  rw [if_neg (by simp only [List.length_cons]; omega)]
  rw [show (c32CharOf v :: c32_encode (data ++ checksumOf v data)).headD 0
      = c32CharOf v from rfl]
  rw [show (c32CharOf v :: c32_encode (data ++ checksumOf v data)).drop 1
      = c32_encode (data ++ checksumOf v data) from rfl]
  rw [c32_decode_ascii_encode _ hxlt]
  split
  · next heq => simp at heq
  · next heq => simp at heq
  · next dataSumBytes heq =>
      have hds : dataSumBytes = data ++ checksumOf v data := by
        injection heq with h
        exact h.symm
      subst hds
      rw [if_neg (by omega)]
      rw [c32_decode_ascii_single v hv]
      split
      · next heq2 => simp at heq2
      · next heq2 => simp at heq2
      · next decodedVersion heq2 =>
          have hdv : decodedVersion = [v] := by
            injection heq2 with h
            exact h.symm
          subst hdv
          have htake : (data ++ checksumOf v data).take
              ((data ++ checksumOf v data).length - 4) = data := by
            rw [hxlen, Nat.add_sub_cancel, List.take_left]
          have hdrop : (data ++ checksumOf v data).drop
              ((data ++ checksumOf v data).length - 4) = checksumOf v data := by
            rw [hxlen, Nat.add_sub_cancel, List.drop_left]
          rw [htake, hdrop]
          have hsum : checksumOf v data = (sha256 (sha256 ([v] ++ data))).take 4 := rfl
          rw [hsum]
          split
          · next heq3 => simp at heq3
          · next v0 tail heq3 =>
              have hv0 : v0 = v := by
                injection heq3 with h1 h2
                exact h1.symm
              subst hv0
              rw [if_pos ⟨(getD_take_lt _ 4 0 (by norm_num)).symm,
                (getD_take_lt _ 4 1 (by norm_num)).symm,
                (getD_take_lt _ 4 2 (by norm_num)).symm,
                (getD_take_lt _ 4 3 (by norm_num)).symm⟩]

theorem c32_address_decode_addr (v : Nat) (data : List Nat) (hv : v < 32)
    (hd : ∀ x ∈ data, x < 256) :
    c32_address_decode (c32AddressStr v data) = .ok (v, data) := by
  have hxlt : ∀ y ∈ data ++ checksumOf v data, y < 256 := by
    intro y hy
    rcases List.mem_append.mp hy with h | h
    · exact hd y h
    · exact checksumOf_lt v data y h
  have hxlen : (data ++ checksumOf v data).length = data.length + 4 := by
    simp [checksumOf_length]
  have hClen : (data ++ checksumOf v data).length
      ≤ (c32_encode (data ++ checksumOf v data)).length :=
    c32_encode_length_ge _ hxlt
  have hvchar := c32_char_lt128 v hv
  simp only [c32_address_decode, c32AddressStr]
  rw [if_neg (by simp only [List.length_cons]; omega)]
  rw [if_neg (by
    simp only [List.getD_cons_succ, List.getD_cons_zero]
    omega)]
  exact c32_check_decode_addr v data hv hd

theorem normStep_compat (c c2 : Nat) (h : normStep c c2) : normCompat c c2 := by
  rcases h with rfl | ⟨h1, h2, rfl⟩ | ⟨h1, h2⟩ | ⟨h1, h2⟩
  · exact ⟨rfl, Iff.rfl, Iff.rfl⟩
  · have key : ∀ d, d < 91 → 65 ≤ d → normCompat d (d + 32) := by decide
    exact key c (by omega) h1
  · have hc := lookupC32_lt128 c 0 h1
    have key : ∀ d, d < 128 → lookupC32 d = some 0 →
        normCompat d 79 ∧ normCompat d 111 := by decide
    rcases h2 with rfl | rfl
    · exact (key c hc h1).1
    · exact (key c hc h1).2
  · have hc := lookupC32_lt128 c 1 h1
    have key : ∀ d, d < 128 → lookupC32 d = some 1 →
        normCompat d 76 ∧ normCompat d 108 ∧ normCompat d 73 ∧ normCompat d 105 := by
      decide
    rcases h2 with rfl | rfl | rfl | rfl
    · exact (key c hc h1).1
    · exact (key c hc h1).2.1
    · exact (key c hc h1).2.2.1
    · exact (key c hc h1).2.2.2

theorem c32DigitsOf_congr (l l2 : List Nat)
    (h : List.Forall₂ (fun c c2 => lookupC32 c2 = lookupC32 c) l l2) :
    c32DigitsOf l2 = c32DigitsOf l := by
  induction h with
  | nil => rfl
  | cons hab hrest ih =>
      simp only [c32DigitsOf]
      rw [hab, ih]

theorem all_ascii_congr (l l2 : List Nat)
    (h : List.Forall₂ (fun c c2 => c < 128 ↔ c2 < 128) l l2) :
    l2.all (· < 128) = l.all (· < 128) := by
  induction h with
  | nil => rfl
  | cons hab hrest ih =>
      simp only [List.all_cons, ih]
      rw [decide_eq_decide.mpr hab]

theorem c32_decode_ascii_congr (l l2 : List Nat)
    (h : List.Forall₂ (fun c c2 => lookupC32 c2 = lookupC32 c) l l2) :
    c32_decode_ascii l2 = c32_decode_ascii l := by
  simp only [c32_decode_ascii]
  rw [c32DigitsOf_congr l l2 h]

theorem c32_check_decode_congr (l l2 : List Nat)
    (h : List.Forall₂ (fun c c2 =>
      lookupC32 c2 = lookupC32 c ∧ (c < 128 ↔ c2 < 128)) l l2) :
    c32_check_decode l2 = c32_check_decode l := by
  cases h with
  | nil => rfl
  | @cons a b l1 l3 hab hrest =>
      have hlen : l3.length = l1.length := (List.Forall₂.length_eq hrest).symm
      have hall : (b :: l3).all (· < 128) = (a :: l1).all (· < 128) :=
        all_ascii_congr _ _ (List.Forall₂.cons hab.2 (hrest.imp (fun _ _ hx => hx.2)))
      have hdecData : c32_decode_ascii l3 = c32_decode_ascii l1 :=
        c32_decode_ascii_congr _ _ (hrest.imp (fun _ _ hx => hx.1))
      have hdecVer : c32_decode_ascii [b] = c32_decode_ascii [a] :=
        c32_decode_ascii_congr [a] [b]
          (List.Forall₂.cons hab.1 List.Forall₂.nil)
      simp only [c32_check_decode, List.headD_cons, List.drop_succ_cons,
        List.drop_zero, List.length_cons]
      rw [hall, hlen, hdecData, hdecVer]

theorem c32_address_decode_congr (l l2 : List Nat)
    (h : List.Forall₂ normCompat l l2) :
    c32_address_decode l2 = c32_address_decode l := by
  cases h with
  | nil => rfl
  | @cons a b l1 l3 hab hrest =>
      have hlen : l3.length = l1.length := (List.Forall₂.length_eq hrest).symm
      have hcont : (128 ≤ l3.getD 0 0 ∧ l3.getD 0 0 < 192)
          ↔ (128 ≤ l1.getD 0 0 ∧ l1.getD 0 0 < 192) := by
        cases hrest with
        | nil => exact Iff.rfl
        | cons hab2 hrest2 =>
            simp only [List.getD_cons_zero]
            exact hab2.2.2.symm
      have hcheck : c32_check_decode l3 = c32_check_decode l1 :=
        c32_check_decode_congr _ _ (hrest.imp (fun _ _ hx => ⟨hx.1, hx.2.1⟩))
      simp only [c32_address_decode, List.length_cons, List.drop_succ_cons,
        List.drop_zero, List.getD_cons_succ]
      rw [hlen, if_congr hcont rfl rfl, hcheck]

theorem forall₂_of_pointwise (R : Nat → Nat → Prop) :
    ∀ l l2 : List Nat, l.length = l2.length →
    (∀ i, i < l.length → R (l.getD i 0) (l2.getD i 0)) →
    List.Forall₂ R l l2 := by
  intro l
  induction l with
  | nil =>
      intro l2 hlen _
      cases l2 with
      | nil => exact List.Forall₂.nil
      | cons b t => simp at hlen
  | cons a l1 ih =>
      intro l2 hlen hp
      cases l2 with
      | nil => simp at hlen
      | cons b l3 =>
          refine List.Forall₂.cons ?_ ?_
          · have := hp 0 (by simp)
            simpa using this
          · refine ih l3 (by simpa using hlen) ?_
            intro i hi
            have := hp (i + 1) (by simpa using Nat.succ_lt_succ hi)
            simpa using this

/-- Claim C1: raw transform round-trip.  For every byte sequence `b`
(`u8` values, so every element is below 256), including the empty sequence
and sequences with leading or interior zero bytes, `c32_decode` applied to
`c32_encode b` succeeds and returns exactly `b`. -/
theorem claim_C1_raw_roundtrip (b : List Nat) (hb : ∀ x ∈ b, x < 256) :
    c32_decode (c32_encode b) = .ok b := by
  have hall : ((c32_encode b).all (· < 128)) = true := by
    rw [List.all_eq_true]
    intro y hy
    simp only [decide_eq_true_eq]
    exact c32_encode_ascii b hb y hy
  simp only [c32_decode]
  rw [if_pos hall]
  exact c32_decode_ascii_encode b hb

theorem claim_C1_raw_roundtrip_witness :
    c32_decode (c32_encode [0, 1, 255]) = .ok [0, 1, 255] :=
  claim_C1_raw_roundtrip [0, 1, 255] (by decide)

/-- Claim C2: address round-trip.  For every version below 32 and every
byte sequence `data`, `c32_address` succeeds (returning the explicit
string `c32AddressStr version data`) and `c32_address_decode` applied to
that string returns exactly `(version, data)`. -/
theorem claim_C2_address_roundtrip (version : Nat) (data : List Nat)
    (hv : version < 32) (hd : ∀ x ∈ data, x < 256) :
    c32_address version data = .ok (c32AddressStr version data)
    ∧ c32_address_decode (c32AddressStr version data) = .ok (version, data) :=
  ⟨c32_check_encode_ok version data hv hd,
   c32_address_decode_addr version data hv hd⟩

theorem claim_C2_address_roundtrip_witness :
    c32_address 0 [] = .ok (c32AddressStr 0 [])
    ∧ c32_address_decode (c32AddressStr 0 []) = .ok (0, []) :=
  claim_C2_address_roundtrip 0 [] (by norm_num) (by simp)

/-- Counterexample to claim C3 as stated: the second concrete vector is
wrong.  Encoding version 0 with the 20-byte payload `00…01` does NOT
return the spec's string `S0000000000000000000002AA028H` (ASCII codes
below); it returns `S000000000000000000006EKBDDS`. -/
theorem claim_C3_counterexample :
    c32_address 0 [0, 0, 0, 0, 0, 0, 0, 0, 0, 0, 0, 0, 0, 0, 0, 0, 0, 0, 0, 1]
      ≠ .ok [83, 48, 48, 48, 48, 48, 48, 48, 48, 48, 48, 48, 48, 48, 48, 48, 48,
             48, 48, 48, 48, 48, 50, 65, 65, 48, 50, 56, 72] := by decide

/-- Claim C3, amended: `c32_address 22 (hex a46f…d39d)` returns exactly
`SP2J6ZY48GV1EZ5V2V5RB9MP66SW86PYKKNRV9EJ7`, and
`c32_address 0 (hex 00…01)` returns exactly `S000000000000000000006EKBDDS`;
the spec's string `S0000000000000000000002AA028H` is the encoding of the
all-zero 20-byte payload instead. -/
theorem claim_C3_amended_vectors :
    c32_address 22 [0xa4, 0x6f, 0xf8, 0x88, 0x86, 0xc2, 0xef, 0x97, 0x62, 0xd9,
        0x70, 0xb4, 0xd2, 0xc6, 0x36, 0x78, 0x83, 0x5b, 0xd3, 0x9d]
      = .ok [83, 80, 50, 74, 54, 90, 89, 52, 56, 71, 86, 49, 69, 90, 53, 86, 50,
             86, 53, 82, 66, 57, 77, 80, 54, 54, 83, 87, 56, 54, 80, 89, 75, 75,
             78, 82, 86, 57, 69, 74, 55]
    ∧ c32_address 0 [0, 0, 0, 0, 0, 0, 0, 0, 0, 0, 0, 0, 0, 0, 0, 0, 0, 0, 0, 1]
      = .ok [83, 48, 48, 48, 48, 48, 48, 48, 48, 48, 48, 48, 48, 48, 48, 48, 48,
             48, 48, 48, 48, 54, 69, 75, 66, 68, 68, 83]
    ∧ c32_address 0 [0, 0, 0, 0, 0, 0, 0, 0, 0, 0, 0, 0, 0, 0, 0, 0, 0, 0, 0, 0]
      = .ok [83, 48, 48, 48, 48, 48, 48, 48, 48, 48, 48, 48, 48, 48, 48, 48, 48,
             48, 48, 48, 48, 48, 50, 65, 65, 48, 50, 56, 72] := by
  refine ⟨by decide, by decide, by decide⟩

/-- Claim C4: leading-zero preservation on encode.  For every byte sequence
`b` with exactly `k` leading zero bytes (`k` is the length of
`b.takeWhile (· == 0)`), the encoded output starts with exactly `k` zero
symbols (ASCII 48) and the rest is empty or starts with a non-zero symbol;
moreover `c32_encode [1] = "1"`, `c32_encode [0,1] = "01"` and
`c32_encode [] = ""`. -/
theorem claim_C4_leading_zeros (b : List Nat) (hb : ∀ x ∈ b, x < 256) :
    (c32_encode b).take (b.takeWhile (· == 0)).length
        = List.replicate (b.takeWhile (· == 0)).length 48
    ∧ ((c32_encode b).drop (b.takeWhile (· == 0)).length = []
        ∨ ((c32_encode b).drop (b.takeWhile (· == 0)).length).headD 0 ≠ 48)
    ∧ c32_encode [1] = [49] ∧ c32_encode [0, 1] = [48, 49]
    ∧ c32_encode [] = [] := by
  have hmap : c32_encode b
      = List.replicate (b.takeWhile (· == 0)).length 48
        ++ ((c32EncodeLoop b.reverse 0 0).reverse.dropWhile (· == 0)).map
            c32CharOf := by
    simp only [c32_encode, c32EncodeDigits_split, List.map_append,
      List.map_replicate]
    rfl
  have hlenr : (List.replicate (b.takeWhile (· == 0)).length 48).length
      = (b.takeWhile (· == 0)).length := List.length_replicate _ _
  refine ⟨?_, ?_, by decide, by decide, by decide⟩
  · rw [hmap]
    exact List.take_left' hlenr
  · rw [hmap]
    rw [List.drop_left' hlenr]
    cases hD : (c32EncodeLoop b.reverse 0 0).reverse.dropWhile (· == 0) with
    | nil => left; rfl
    | cons d r =>
        right
        have hdne : d ≠ 0 := by
          rcases dropWhile_zero_head (c32EncodeLoop b.reverse 0 0).reverse with h | h
          · rw [hD] at h; simp at h
          · rw [hD] at h; simpa using h
        have hdlt : d < 32 := by
          apply c32EncodeDigits_lt b hb
          rw [c32EncodeDigits_split]
          exact List.mem_append.mpr (Or.inr (hD ▸ List.mem_cons_self d r))
        simpa using c32_char_ne_48 d hdlt hdne

theorem claim_C4_leading_zeros_witness :
    (c32_encode [0, 0, 5]).take 2 = List.replicate 2 48
    ∧ ((c32_encode [0, 0, 5]).drop 2 = []
        ∨ ((c32_encode [0, 0, 5]).drop 2).headD 0 ≠ 48)
    ∧ c32_encode [1] = [49] ∧ c32_encode [0, 1] = [48, 49]
    ∧ c32_encode [] = [] :=
  claim_C4_leading_zeros [0, 0, 5] (by decide)

/-- Claim C5: normalization invariance.  Replacing characters of a valid
address string pointwise by `normStep` (lowercase a letter, replace a
0-valued character by `O`/`o`, replace a 1-valued character by
`L`/`l`/`I`/`i`, or keep the character) yields a string that decodes to
exactly the same `(version, payload)` result. -/
theorem claim_C5_normalization (s s2 : List Nat) (v : Nat) (d : List Nat)
    (hlen : s.length = s2.length)
    (hstep : ∀ i, i < s.length → normStep (s.getD i 0) (s2.getD i 0))
    (hok : c32_address_decode s = .ok (v, d)) :
    c32_address_decode s2 = .ok (v, d) := by
  have hf : List.Forall₂ normCompat s s2 :=
    forall₂_of_pointwise normCompat s s2 hlen
      (fun i hi => normStep_compat _ _ (hstep i hi))
  rw [c32_address_decode_congr s s2 hf]
  exact hok

theorem claim_C5_normalization_witness :
    c32_address_decode [115, 48, 50, 106, 54, 122, 121, 52, 56, 103, 118, 49,
        101, 122, 53, 118, 50, 118, 53, 114, 98, 57, 109, 112, 54, 54, 115, 119,
        56, 54, 112, 121, 107, 107, 112, 118, 107, 103, 50, 99, 101]
      = .ok (0, [0xa4, 0x6f, 0xf8, 0x88, 0x86, 0xc2, 0xef, 0x97, 0x62, 0xd9,
        0x70, 0xb4, 0xd2, 0xc6, 0x36, 0x78, 0x83, 0x5b, 0xd3, 0x9d]) :=
  claim_C5_normalization
    [83, 48, 50, 74, 54, 90, 89, 52, 56, 71, 86, 49, 69, 90, 53, 86, 50, 86,
     53, 82, 66, 57, 77, 80, 54, 54, 83, 87, 56, 54, 80, 89, 75, 75, 80, 86,
     75, 71, 50, 67, 69]
    [115, 48, 50, 106, 54, 122, 121, 52, 56, 103, 118, 49, 101, 122, 53, 118,
     50, 118, 53, 114, 98, 57, 109, 112, 54, 54, 115, 119, 56, 54, 112, 121,
     107, 107, 112, 118, 107, 103, 50, 99, 101]
    0
    [0xa4, 0x6f, 0xf8, 0x88, 0x86, 0xc2, 0xef, 0x97, 0x62, 0xd9, 0x70, 0xb4,
     0xd2, 0xc6, 0x36, 0x78, 0x83, 0x5b, 0xd3, 0x9d]
    (by decide) (by decide) (by decide)

/-- Claim C6: version rejection.  For every `u8` version value at or above
32, `c32_address` fails with `InvalidVersion` carrying that version, and
for every version below 32 it succeeds (so the rejection does not
occur). -/
theorem claim_C6_version_rejection (version : Nat) (data : List Nat)
    (hv : version < 256) (hd : ∀ x ∈ data, x < 256) :
    (32 ≤ version → c32_address version data = .err (.invalidVersion version))
    ∧ (version < 32 →
        c32_address version data = .ok (c32AddressStr version data)) := by
  constructor
  · intro h
    show c32_check_encode_prefixed version data 83 = _
    simp only [c32_check_encode_prefixed]
    rw [if_pos h]
  · intro h
    exact c32_check_encode_ok version data h hd

theorem claim_C6_version_rejection_witness :
    c32_address 32 [1] = .err (.invalidVersion 32)
    ∧ c32_address 255 [1] = .err (.invalidVersion 255)
    ∧ c32_address 31 [1] = .ok (c32AddressStr 31 [1]) :=
  ⟨(claim_C6_version_rejection 32 [1] (by decide) (by decide)).1 (by decide),
   (claim_C6_version_rejection 255 [1] (by decide) (by decide)).1 (by decide),
   (claim_C6_version_rejection 31 [1] (by decide) (by decide)).2 (by decide)⟩

/-- Claim C7, evaluated on the code.  First conjunct: an input of length 9
(> 5) whose FIRST character is the multi-byte U+1D7D8 (bytes
`f0 9d 9f 98`, followed by `AAAAA`) makes `c32_address_decode` panic —
`&s[1..]` slices off a character boundary — instead of returning the
non-ASCII error as the claim requires.  Second conjunct: the spec's own
concrete vector (`S` followed by U+1D7D8 then 39 valid symbols) does
return the non-ASCII error (`InvalidCrockford32` in the code). -/
theorem claim_C7_nonascii_eval :
    c32_address_decode [0xf0, 0x9d, 0x9f, 0x98, 65, 65, 65, 65, 65] = .panic
    ∧ c32_address_decode ([83, 0xf0, 0x9d, 0x9f, 0x98] ++
        [50, 74, 54, 90, 89, 52, 56, 71, 86, 49, 69, 90, 53, 86, 50, 86, 53, 82,
         66, 57, 77, 80, 54, 54, 83, 87, 56, 54, 80, 89, 75, 75, 80, 86, 75, 71,
         50, 67, 69])
      = .err .invalidCrockford32 := by
  refine ⟨by decide, by decide⟩

/-- Claim C8, evaluated on the code: decoding
`SU2J6ZY48GV1EZ5V2V5RB9MP66SW86PYKKNRV9EJ7` — a checksummed string whose
version symbol `U` is not in the decode table while the data part decodes
to 24 bytes — PANICS (the `c32_decode_ascii(&[*version]).unwrap()` in
`c32_check_decode`) instead of returning the invalid-symbol error the
claim requires. -/
theorem claim_C8_invalid_symbol_eval :
    c32_address_decode [83, 85, 50, 74, 54, 90, 89, 52, 56, 71, 86, 49, 69, 90,
        53, 86, 50, 86, 53, 82, 66, 57, 77, 80, 54, 54, 83, 87, 56, 54, 80, 89,
        75, 75, 78, 82, 86, 57, 69, 74, 55] = .panic := by decide

/-- Claim C9: structural-shortness rejection.  `c32_address_decode` fails
with `InvalidFormat` (`InvalidCrockford32` in the code) for every input of
length at most 5, and for every longer input with an ASCII version symbol
whose remainder (after the prefix and version characters) raw-decodes to
fewer than 4 bytes; the result is this error, not `BadChecksum` and not a
panic, so no checksum comparison takes place. -/
theorem claim_C9_short_rejection (s bs : List Nat)
    (h : s.length ≤ 5
      ∨ (5 < s.length ∧ s.getD 1 0 < 128
          ∧ c32_decode_ascii (s.drop 2) = .ok bs ∧ bs.length < 4)) :
    c32_address_decode s = .err .invalidCrockford32 := by
  rcases h with h | ⟨hlen, hver, hdec, hbs⟩
  · simp only [c32_address_decode]
    rw [if_pos h]
  · cases s with
    | nil => simp at hlen
    | cons a s1 =>
        cases s1 with
        | nil => simp at hlen
        | cons b t =>
            simp only [List.getD_cons_succ, List.getD_cons_zero] at hver
            simp only [List.drop_succ_cons, List.drop_zero] at hdec
            simp only [List.length_cons] at hlen
            simp only [c32_address_decode, List.length_cons, List.getD_cons_succ,
              List.getD_cons_zero, List.drop_succ_cons, List.drop_zero]
            rw [if_neg (by omega), if_neg (by omega)]
            obtain ⟨ds, hds⟩ : ∃ ds, c32DigitsOf t = some ds := by
              revert hdec
              simp only [c32_decode_ascii]
              cases hx : c32DigitsOf t with
              | none => intro hc; exact absurd hc (by simp)
              | some ds => intro _; exact ⟨ds, rfl⟩
            have htascii : ∀ c ∈ t, c < 128 := c32DigitsOf_ascii t ds hds
            have hallbt : ((b :: t).all (· < 128)) = true := by
              rw [List.all_eq_true]
              intro y hy
              simp only [decide_eq_true_eq]
              rcases List.mem_cons.mp hy with rfl | hy2
              · omega
              · exact htascii y hy2
            simp only [c32_check_decode, List.headD_cons, List.drop_succ_cons,
              List.drop_zero, List.length_cons]
            rw [if_neg (not_not_intro hallbt), if_neg (by omega), hdec]
            split
            · next heq => simp at heq
            · next heq => simp at heq
            · next dsb heq =>
                have hdsb : dsb = bs := by
                  injection heq with h2
                  exact h2.symm
                subst hdsb
                rw [if_pos hbs]

theorem claim_C9_short_rejection_witness :
    c32_address_decode [83, 48, 90, 90, 90, 90] = .err .invalidCrockford32 :=
  claim_C9_short_rejection [83, 48, 90, 90, 90, 90] [15, 255, 255] (by decide)

/-- Claim C10: encode buffer sizing is safe.  The capacity formula bounds
both the number of symbols the packing phase writes and the final output
length; an undersized buffer is rejected with the sizing error
(`Error::Other`) rather than written past; and at the computed capacity the
buffer encode succeeds (so `c32_encode`, which allocates exactly that
capacity and unwraps, never fails). -/
theorem claim_C10_buffer_sizing (b : List Nat) (hb : ∀ x ∈ b, x < 256) :
    (c32EncodeLoop b.reverse 0 0).length ≤ get_max_c32_encode_output_len b.length
    ∧ (c32_encode b).length ≤ get_max_c32_encode_output_len b.length
    ∧ (∀ m, m < get_max_c32_encode_output_len b.length →
        c32_encode_to_buffer b m = .err .other)
    ∧ c32_encode_to_buffer b (get_max_c32_encode_output_len b.length)
        = .ok (c32_encode b) := by
  refine ⟨?_, c32_encode_length_le b hb, ?_, c32_encode_to_buffer_ok b hb⟩
  · rw [encode_pack_length]
    exact pack_length_le_max b.length
  · intro m hm
    simp only [c32_encode_to_buffer]
    rw [if_pos hm]

theorem claim_C10_buffer_sizing_witness :
    (c32EncodeLoop ([7] : List Nat).reverse 0 0).length
        ≤ get_max_c32_encode_output_len 1
    ∧ (c32_encode [7]).length ≤ get_max_c32_encode_output_len 1
    ∧ c32_encode_to_buffer [7] 2 = .err .other
    ∧ c32_encode_to_buffer [7] 3 = .ok (c32_encode [7]) := by
  have h := claim_C10_buffer_sizing [7] (by decide)
  exact ⟨h.1, h.2.1, h.2.2.1 2 (by decide), h.2.2.2⟩

end C32
